import Mathlib

/-!
Shallow embedding of the "jump to link" Obsidian plugin (src/main.ts).

JS strings are modelled as `List Char`; the DOM and the host editor appear
only through the data they hand to the plugin (rendered overlay elements are
counted, the keydown listener is a flag).  Machine integers do not overflow
in this program (all counts are small), so `Nat`/`Int` are used directly.
-/

namespace JumpToLink

/-! ## Label allocator (`getLinkHintLetters`, main.ts lines 258-289) -/

def alphabet : List Char := "ABCDEFGHIJKLMNOPQRSTUVWXYZ".data

/-- `Math.ceil((numLinkHints - alphabet.length) / (alphabet.length - 1))`,
then clamped by `Math.max(·, 0)` and `Math.min(·, 26)` as in the source.
For integers, `Math.ceil(x / 25) = (x + 24).fdiv 25` (floor division). -/
def prefixCount (numLinkHints : Nat) : Nat :=
  let raw : Int := (((numLinkHints : Int) - 26) + 24).fdiv 25
  (min (max raw 0) 26).toNat

/-- One iteration of the inner `for` loop body of `getLinkHintLetters`:
push a label unless the requested count is already reached; under the
empty prefix a letter that is itself a prefix letter is skipped. -/
def hintStep (numLinkHints : Nat) (prefixes : List (List Char)) (pre : List Char)
    (acc : List (List Char)) (letter : Char) : List (List Char) :=
  if acc.length < numLinkHints then
    if pre.isEmpty then
      if [letter] ∈ prefixes then acc else acc ++ [[letter]]
    else
      acc ++ [pre ++ [letter]]
  else acc

/-- `['', ...Array.from(alphabet.slice(0, prefixCount))]` -/
def hintPrefixes (prefixCnt : Nat) : List (List Char) :=
  [] :: (alphabet.take prefixCnt).map (fun c => [c])

def getLinkHintLetters (numLinkHints : Nat) : List (List Char) :=
  let prefixes := hintPrefixes (prefixCount numLinkHints)
  prefixes.foldl (fun acc pre => alphabet.foldl (hintStep numLinkHints prefixes pre) acc) []

/-- The unbounded stream of labels the nested loops would emit with no count
limit: single letters not reserved as prefixes, then `prefix ++ letter`
pairs.  `getLinkHintLetters n` is a `take n` of this list (proved below). -/
def fullLabelList (prefixCnt : Nat) : List (List Char) :=
  (alphabet.filter (fun c => decide ([c] ∉ hintPrefixes prefixCnt))).map (fun c => [c])
    ++ ((alphabet.take prefixCnt).map (fun c => [c])).flatMap
        (fun pre => alphabet.map (fun c => pre ++ [c]))

/-- `a` is a strict (proper) prefix of `b`. -/
def IsStrictPrefixOf (a b : List Char) : Prop := a <+: b ∧ a ≠ b

/-- Neither label of the pair is a strict prefix of the other. -/
def prefixFreePair (a b : List Char) : Prop :=
  ¬ IsStrictPrefixOf a b ∧ ¬ IsStrictPrefixOf b a

/-! ## Data model (fields as used by main.ts; the `types` module declares them) -/

inductive LinkHintType
  | internal
  | external
deriving DecidableEq, Repr

structure LinkHintBase where
  letter : List Char
  linkText : List Char
  type : LinkHintType
deriving DecidableEq, Repr

/-- `this.prefixInfo : { prefix: string, shiftKey: boolean } | undefined` -/
structure PrefixInfo where
  prefixKey : List Char
  shiftKey : Bool
deriving DecidableEq, Repr

/-- Mutable plugin/DOM state touched by the session code: `this.prefixInfo`,
`this.isLinkHintActive`, whether the keydown listener is registered, and the
rendered overlay elements (`.jl.popover` nodes and `#jl-modal` nodes). -/
structure PluginState where
  prefixInfo : Option PrefixInfo
  isLinkHintActive : Bool
  listenerRegistered : Bool
  popoverEls : Nat
  modalEls : Nat
deriving DecidableEq, Repr

structure KeyEvent where
  key : List Char
  shiftKey : Bool
deriving DecidableEq, Repr

def shiftKeyName : List Char := "Shift".data

/-! ## Selection state machine (`activateLinkHints`/`handleKeyDown`, lines 70-125) -/

/-- `linkHintMap[x.letter] = x` for each hint in order, then lookup:
a later hint with the same letter overwrites an earlier one. -/
def lookupHint (hints : List LinkHintBase) (k : List Char) : Option LinkHintBase :=
  hints.foldl (fun acc x => if x.letter = k then some x else acc) none

/-- `prefixes = new Set(Object.keys(linkHintMap).filter(x => x.length > 1).map(x => x[0]))`
and then `prefixes.has(k)`. -/
def isPrefixKey (hints : List LinkHintBase) (k : List Char) : Bool :=
  hints.any (fun x => decide (1 < x.letter.length) && decide (k = x.letter.take 1))

/-- The resolution tail of `handleKeyDown` (lines 108-120): compute
`newLeaf = this.prefixInfo?.shiftKey || event.shiftKey`, invoke
`handleHotkey(newLeaf, linkHint)` when a hint matched (returned as the second
component for the navigation dispatcher), then tear everything down. -/
def resolveKey (st : PluginState) (ev : KeyEvent) (linkHint : Option LinkHintBase) :
    PluginState × Option (Bool × LinkHintBase) :=
  let newLeaf := (match st.prefixInfo with
                  | some pi => pi.shiftKey
                  | none => false) || ev.shiftKey
  ({ prefixInfo := none, isLinkHintActive := false, listenerRegistered := false,
     popoverEls := 0, modalEls := 0 },
   linkHint.map (fun h => (newLeaf, h)))

/-- `handleKeyDown` (lines 84-121).  The second component is the argument pair
`(newLeaf, link)` passed to `handleHotkey` (the navigation dispatcher), or
`none` when no navigation is requested. -/
def handleKeyDown (hints : List LinkHintBase) (st : PluginState) (ev : KeyEvent) :
    PluginState × Option (Bool × LinkHintBase) :=
  if ev.key = shiftKeyName then (st, none)
  else
    let eventKey := ev.key.map Char.toUpper
    match st.prefixInfo with
    | some pi => resolveKey st ev (lookupHint hints (pi.prefixKey ++ eventKey))
    | none =>
      let linkHint := lookupHint hints eventKey
      if linkHint.isNone && isPrefixKey hints eventKey then
        ({ st with prefixInfo := some { prefixKey := eventKey, shiftKey := ev.shiftKey } }, none)
      else resolveKey st ev linkHint

/-- A keystroke resolves the session (terminates it, successfully or not)
unless it is the bare `Shift` key or it takes the prefix-recording branch
(no direct match but the key is the first letter of a longer label). -/
def resolvesSession (hints : List LinkHintBase) (st : PluginState) (ev : KeyEvent) : Prop :=
  ev.key ≠ shiftKeyName ∧
  (st.prefixInfo ≠ none ∨
   lookupHint hints (ev.key.map Char.toUpper) ≠ none ∨
   isPrefixKey hints (ev.key.map Char.toUpper) = false)

def lowercaseAlphabet : List Char := "abcdefghijklmnopqrstuvwxyz".data

/-! ## Activation (`handleJumpToLink`/`manage*LinkHints`, lines 30-68, 123-124) -/

inductive LinkHintMode
  | popovers
  | modal
deriving DecidableEq, Repr

/-- Observable side effects of an activation request. -/
inductive ActivationEffect
  | registeredKeydownListener
  | builtHintSet (hints : List LinkHintBase)
  | renderedModal
  | renderedPopovers
deriving DecidableEq, Repr

/-- `activateLinkHints` (lines 70-125): build the letter map, register the
keydown listener, set the active flag. -/
def activateLinkHints (hints : List LinkHintBase) (st : PluginState) :
    PluginState × List ActivationEffect :=
  ({ st with listenerRegistered := true, isLinkHintActive := true },
   [ActivationEffect.builtHintSet hints, ActivationEffect.registeredKeydownListener])

/-- Common body of `managePreviewLinkHints`/`manageSourceLinkHints`
(lines 46-68): when hints exist, render them per the settings mode and arm
the session. -/
def manageLinkHints (mode : LinkHintMode) (st : PluginState) (linkHints : List LinkHintBase) :
    PluginState × List ActivationEffect :=
  if linkHints.length ≠ 0 then
    let rendered : PluginState × List ActivationEffect :=
      match mode with
      | LinkHintMode.modal =>
          ({ st with modalEls := st.modalEls + 1 }, [ActivationEffect.renderedModal])
      | LinkHintMode.popovers =>
          ({ st with popoverEls := st.popoverEls + linkHints.length },
           [ActivationEffect.renderedPopovers])
    let activated := activateLinkHints linkHints rendered.1
    (activated.1, rendered.2 ++ activated.2)
  else (st, [])

/-! ## Raw-text link locator (`getSourceLinkHints`, lines 218-256)

The three JS regexes are embedded as backtracking matchers with the same
match order: lazy `.+?` groups try shorter extents first, the optional group
`(\|.+?)?` tries to be present before being empty, `https?` tries the `s`
first, and `[^ \n]+` is greedy with nothing after it.  `.` excludes the
JS line terminators. -/

def isDot (c : Char) : Bool :=
  !(c = '\n' || c = '\r' || c = Char.ofNat 0x2028 || c = Char.ofNat 0x2029)

def slice (s : List Char) (i len : Nat) : List Char := (s.drop i).take len

/-- One attempt of `/\[\[(.+?)(\|.+?)?\]\]/` anchored at position `i`;
returns (end position, first capture group). -/
def matchInternalAt (s : List Char) (i : Nat) : Option (Nat × List Char) :=
  if s[i]? = some '[' ∧ s[i+1]? = some '[' then
    (List.range s.length).findSome? (fun k =>
      let len1 := k + 1
      let g1 := slice s (i+2) len1
      if g1.length = len1 ∧ g1.all isDot then
        let p := i + 2 + len1
        let withAlt : Option Nat :=
          if s[p]? = some '|' then
            (List.range s.length).findSome? (fun k2 =>
              let len2 := k2 + 1
              let g2 := slice s (p+1) len2
              if g2.length = len2 ∧ g2.all isDot ∧
                  s[p+1+len2]? = some ']' ∧ s[p+2+len2]? = some ']' then
                some (p + 3 + len2)
              else none)
          else none
        match withAlt with
        | some e => some (e, g1)
        | none =>
          if s[p]? = some ']' ∧ s[p+1]? = some ']' then some (p + 2, g1) else none
      else none)
  else none

/-- One attempt of `/\[.+?\]\((.+?)\)/` anchored at position `i`;
returns (end position, capture group = the part in parentheses). -/
def matchExternalAt (s : List Char) (i : Nat) : Option (Nat × List Char) :=
  if s[i]? = some '[' then
    (List.range s.length).findSome? (fun k =>
      let len1 := k + 1
      let g1 := slice s (i+1) len1
      if g1.length = len1 ∧ g1.all isDot ∧
          s[i+1+len1]? = some ']' ∧ s[i+2+len1]? = some '(' then
        (List.range s.length).findSome? (fun k2 =>
          let len2 := k2 + 1
          let g2 := slice s (i+3+len1) len2
          if g2.length = len2 ∧ g2.all isDot ∧ s[i+3+len1+len2]? = some ')' then
            some (i + 4 + len1 + len2, g2)
          else none)
      else none)
  else none

/-- `[^ \n]` -/
def urlChar (c : Char) : Bool := !(c = ' ' || c = '\n')

/-- One attempt of `/(?<= |\n|^)(https?:\/\/[^ \n]+)/` anchored at `i`. -/
def matchUrlAt (s : List Char) (i : Nat) : Option (Nat × List Char) :=
  if (i = 0 ∨ s[i-1]? = some ' ' ∨ s[i-1]? = some '\n') ∧
      s[i]? = some 'h' ∧ s[i+1]? = some 't' ∧ s[i+2]? = some 't' ∧ s[i+3]? = some 'p' then
    let afterScheme : Option Nat :=
      if s[i+4]? = some 's' ∧ s[i+5]? = some ':' ∧ s[i+6]? = some '/' ∧ s[i+7]? = some '/' then
        some (i+8)
      else if s[i+4]? = some ':' ∧ s[i+5]? = some '/' ∧ s[i+6]? = some '/' then
        some (i+7)
      else none
    match afterScheme with
    | some j =>
      let body := (s.drop j).takeWhile urlChar
      if body.length = 0 then none
      else some (j + body.length, slice s i (j + body.length - i))
    | none => none
  else none

/-- Leftmost match at or after `start`: (index, end, capture). -/
def findMatchFrom (matchAt : List Char → Nat → Option (Nat × List Char)) (s : List Char)
    (start : Nat) : Option (Nat × Nat × List Char) :=
  (List.range (s.length + 1 - start)).findSome? (fun d =>
    (matchAt s (start + d)).map (fun r => (start + d, r.1, r.2)))

/-- The `while (regExResult = regEx.exec(strs))` loop with the `g` flag:
repeated leftmost search, resuming from each match's end (`lastIndex`).
All three patterns only produce non-empty matches, so `lastIndex` strictly
advances; the fuel is a bound on the number of matches. -/
def execAllAux (matchAt : List Char → Nat → Option (Nat × List Char)) (s : List Char) :
    Nat → Nat → List (Nat × List Char)
  | 0, _ => []
  | fuel + 1, start =>
    match findMatchFrom matchAt s start with
    | none => []
    | some (idx, e, cap) => (idx, cap) :: execAllAux matchAt s fuel e

def execAll (matchAt : List Char → Nat → Option (Nat × List Char)) (s : List Char) :
    List (Nat × List Char) :=
  execAllAux matchAt s (s.length + 1) 0

structure SourceLinkHint where
  letter : Option (List Char)
  index : Nat
  type : LinkHintType
  linkText : List Char
deriving DecidableEq, Repr

/-- Stable insert for `.sort((x, y) => x.index - y.index)` (JS sort is stable:
an element is placed after all earlier elements with the same index). -/
def insertByIndex (x : Nat × LinkHintType × List Char) :
    List (Nat × LinkHintType × List Char) → List (Nat × LinkHintType × List Char)
  | [] => [x]
  | y :: l => if x.1 < y.1 then x :: y :: l else y :: insertByIndex x l

def sortByIndex (l : List (Nat × LinkHintType × List Char)) :
    List (Nat × LinkHintType × List Char) :=
  l.foldl (fun acc x => insertByIndex x acc) []

/-- `getSourceLinkHints` (lines 218-256).  `letters[i]` past the end of the
letter list is JS `undefined`, modelled as `none`. -/
def getSourceLinkHints (strs : List Char) : List SourceLinkHint :=
  let internals := (execAll matchInternalAt strs).map
    (fun r => (r.1, LinkHintType.internal, r.2))
  let externals := (execAll matchExternalAt strs).map
    (fun r => (r.1, LinkHintType.external, r.2))
  let urls := (execAll matchUrlAt strs).map
    (fun r => (r.1, LinkHintType.external, r.2))
  let linksWithIndex := internals ++ externals ++ urls
  let linkHintLetters := getLinkHintLetters linksWithIndex.length
  ((sortByIndex linksWithIndex).enum).map (fun p =>
    { letter := linkHintLetters[p.1]?, index := p.2.1, type := p.2.2.1, linkText := p.2.2.2 })

/-- `handleJumpToLink` (lines 30-44), with the view snapshot supplied as data:
in preview mode the DOM scan result (`getPreviewLinkHints`) is the supplied
hint list; in source mode the editor text is scanned by `getSourceLinkHints`. -/
inductive ViewState
  | preview (domHints : List LinkHintBase)
  | sourceView (text : List Char)
  | otherMode
deriving DecidableEq

/-- Forget the position metadata of a source hint (a JS `undefined` letter
becomes the empty string key). -/
def srcToBase (h : SourceLinkHint) : LinkHintBase :=
  { letter := h.letter.getD [], linkText := h.linkText, type := h.type }

def handleJumpToLink (mode : LinkHintMode) (st : PluginState) (view : ViewState) :
    PluginState × List ActivationEffect :=
  if st.isLinkHintActive then (st, [])
  else
    match view with
    | ViewState.preview domHints => manageLinkHints mode st domHints
    | ViewState.sourceView text =>
        manageLinkHints mode st ((getSourceLinkHints text).map srcToBase)
    | ViewState.otherMode => (st, [])

/-! ## Concrete fixtures used by the claims -/

def docText : List Char := "See [[Home]] and [ext](http://x.com) and visit https://y.com now".data

def hintA : LinkHintBase := { letter := "A".data, linkText := "Alpha".data, type := LinkHintType.internal }

def hintBA : LinkHintBase := { letter := "BA".data, linkText := "Beta".data, type := LinkHintType.internal }

def hintsAB : List LinkHintBase := [hintA, hintBA]

/-- An armed session: listener registered, two popovers rendered, no prefix. -/
def armedAB : PluginState :=
  { prefixInfo := none, isLinkHintActive := true, listenerRegistered := true,
    popoverEls := 2, modalEls := 0 }

/-- `armedAB` after pressing `B` without Shift (prefix recorded). -/
def pendingB : PluginState :=
  { armedAB with prefixInfo := some { prefixKey := ['B'], shiftKey := false } }

end JumpToLink

namespace JumpToLink

lemma prefixCount_eq (n : Nat) : prefixCount n = min 26 ((n - 2) / 25) := by
  simp only [prefixCount, Int.fdiv_eq_ediv _ (by norm_num : (0:Int) ≤ 25)]
  omega

lemma prefixCount_le (n : Nat) : prefixCount n ≤ 26 := by
  rw [prefixCount_eq]; omega

lemma foldl_hintStep_pre (n : Nat) (prefixes : List (List Char)) (pre : List Char)
    (hpre : pre.isEmpty = false) :
    ∀ (xs : List Char) (acc : List (List Char)),
    xs.foldl (hintStep n prefixes pre) acc
      = acc ++ (xs.map (fun c => pre ++ [c])).take (n - acc.length) := by
  intro xs
  induction xs with
  | nil => intro acc; simp
  | cons c xs ih =>
    intro acc
    rw [List.foldl_cons]
    by_cases h : acc.length < n
    · have hstep : hintStep n prefixes pre acc c = acc ++ [pre ++ [c]] := by
        simp [hintStep, h, hpre]
      rw [hstep, ih]
      have h1 : n - acc.length = (n - (acc ++ [pre ++ [c]]).length) + 1 := by
        simp; omega
      rw [h1, List.map_cons, List.take_succ_cons]
      simp
    · have hstep : hintStep n prefixes pre acc c = acc := by
        simp [hintStep, h]
      rw [hstep, ih]
      have h1 : n - acc.length = 0 := by omega
      simp [h1]

lemma foldl_hintStep_empty (n : Nat) (prefixes : List (List Char)) :
    ∀ (xs : List Char) (acc : List (List Char)),
    xs.foldl (hintStep n prefixes []) acc
      = acc ++ ((xs.filter (fun c => decide ([c] ∉ prefixes))).map
          (fun c => [c])).take (n - acc.length) := by
  intro xs
  induction xs with
  | nil => intro acc; simp
  | cons c xs ih =>
    intro acc
    rw [List.foldl_cons]
    by_cases h : acc.length < n
    · by_cases hm : [c] ∈ prefixes
      · have hstep : hintStep n prefixes [] acc c = acc := by
          simp [hintStep, h, hm]
        rw [hstep, ih, List.filter_cons]
        simp [hm]
      · have hstep : hintStep n prefixes [] acc c = acc ++ [[c]] := by
          simp [hintStep, h, hm]
        rw [hstep, ih, List.filter_cons]
        have h1 : n - acc.length = (n - (acc ++ [[c]]).length) + 1 := by
          simp; omega
        simp only [hm, decide_not, decide_eq_true_eq]
        rw [if_pos (by simp [hm]), List.map_cons, h1, List.take_succ_cons]
        simp
    · have hstep : hintStep n prefixes [] acc c = acc := by
        simp [hintStep, h]
      rw [hstep, ih]
      have h1 : n - acc.length = 0 := by omega
      simp [h1]

end JumpToLink

namespace JumpToLink

lemma append_take_chain (acc A B : List (List Char)) (n : Nat) :
    (acc ++ A.take (n - acc.length)) ++ B.take (n - (acc ++ A.take (n - acc.length)).length)
      = acc ++ (A ++ B).take (n - acc.length) := by
  have hx : n - (acc ++ A.take (n - acc.length)).length = (n - acc.length) - A.length := by
    simp only [List.length_append, List.length_take, inf_eq_min]
    omega
  rw [hx, List.take_append_eq_append_take, List.append_assoc]

lemma foldl_hintStep_outer (n : Nat) (prefixes : List (List Char)) :
    ∀ (ps : List (List Char)) (acc : List (List Char)),
    (∀ q ∈ ps, q.isEmpty = false) →
    ps.foldl (fun acc pre => alphabet.foldl (hintStep n prefixes pre) acc) acc
      = acc ++ (ps.flatMap (fun pre => alphabet.map (fun c => pre ++ [c]))).take
          (n - acc.length) := by
  intro ps
  induction ps with
  | nil => intro acc _; simp
  | cons p ps ih =>
    intro acc hne
    rw [List.foldl_cons, foldl_hintStep_pre n prefixes p (hne p (by simp)),
      ih _ (fun q hq => hne q (by simp [hq])), List.flatMap_cons,
      append_take_chain]

lemma getLinkHintLetters_eq_take (n : Nat) :
    getLinkHintLetters n = (fullLabelList (prefixCount n)).take n := by
  unfold getLinkHintLetters fullLabelList
  rw [show hintPrefixes (prefixCount n)
      = [] :: (alphabet.take (prefixCount n)).map (fun c => [c]) from rfl,
    List.foldl_cons,
    foldl_hintStep_empty n _ alphabet [],
    foldl_hintStep_outer n _ _ _ (by
      intro q hq
      simp only [List.mem_map] at hq
      obtain ⟨c, _, rfl⟩ := hq
      rfl),
    append_take_chain]
  simp

end JumpToLink

namespace JumpToLink

lemma alphabet_nodup : alphabet.Nodup := by decide

lemma filter_not_mem_take {α : Type} [DecidableEq α] :
    ∀ (l : List α) (k : Nat), l.Nodup →
    l.filter (fun c => decide (c ∉ l.take k)) = l.drop k := by
  intro l
  induction l with
  | nil => intro k _; simp
  | cons a t ih =>
    intro k hnd
    cases k with
    | zero => simp
    | succ k =>
      have ha : a ∉ t := (List.nodup_cons.1 hnd).1
      rw [List.take_succ_cons, List.filter_cons]
      rw [if_neg (by simp)]
      rw [List.filter_congr (q := fun c => decide (c ∉ t.take k)) (by
        intro x hx
        simp only [decide_eq_decide, List.mem_cons]
        constructor
        · intro h hmem; exact h (Or.inr hmem)
        · intro h hmem
          rcases hmem with h1 | h1
          · exact ha (h1 ▸ hx)
          · exact h h1)]
      rw [ih k (List.nodup_cons.1 hnd).2]
      simp

lemma mem_hintPrefixes (pc : Nat) (c : Char) :
    ([c] ∈ hintPrefixes pc) ↔ c ∈ alphabet.take pc := by
  simp [hintPrefixes, ← List.map_take, List.mem_map]

lemma fullLabelList_singles (pc : Nat) :
    alphabet.filter (fun c => decide ([c] ∉ hintPrefixes pc)) = alphabet.drop pc := by
  rw [List.filter_congr (q := fun c => decide (c ∉ alphabet.take pc)) (by
    intro x _
    simp only [decide_eq_decide]
    exact not_congr (mem_hintPrefixes pc x))]
  exact filter_not_mem_take alphabet pc alphabet_nodup

end JumpToLink

namespace JumpToLink

lemma singleton_injective : Function.Injective (fun c : Char => [c]) := by
  intro a b h
  simpa using h

lemma take_drop_disjoint (pc : Nat) : (alphabet.take pc).Disjoint (alphabet.drop pc) := by
  have h := alphabet_nodup
  rw [← List.take_append_drop pc alphabet] at h
  exact (List.nodup_append.1 h).2.2

lemma mem_pairs (pc : Nat) (x : List Char)
    (hx : x ∈ ((alphabet.take pc).map (fun c => [c])).flatMap
        (fun pre => alphabet.map (fun c => pre ++ [c]))) :
    ∃ p c, p ∈ alphabet.take pc ∧ x = [p, c] := by
  simp only [List.mem_flatMap, List.mem_map] at hx
  obtain ⟨pre, ⟨p, hp, rfl⟩, c, _, rfl⟩ := hx
  exact ⟨p, c, hp, rfl⟩

lemma fullLabelList_nodup (pc : Nat) : (fullLabelList pc).Nodup := by
  unfold fullLabelList
  rw [fullLabelList_singles]
  refine List.nodup_append.2 ⟨?_, ?_, ?_⟩
  · exact List.Nodup.map singleton_injective
      (List.Nodup.sublist (List.drop_sublist pc alphabet) alphabet_nodup)
  · refine List.nodup_flatMap.2 ⟨?_, ?_⟩
    · intro x _
      refine List.Nodup.map ?_ alphabet_nodup
      intro a b h
      simpa using h
    · rw [List.pairwise_map]
      refine List.Pairwise.imp ?_
        (List.Nodup.sublist (List.take_sublist pc alphabet) alphabet_nodup)
      intro p q hpq
      simp only [Function.onFun]
      intro x hx1 hx2
      simp only [List.mem_map] at hx1 hx2
      obtain ⟨c1, _, rfl⟩ := hx1
      obtain ⟨c2, _, h2⟩ := hx2
      exact hpq (by simpa using congrArg (fun l => l.head?) h2.symm)
  · intro x hx1 hx2
    simp only [List.mem_map] at hx1
    obtain ⟨c, _, rfl⟩ := hx1
    obtain ⟨p, c2, _, hx⟩ := mem_pairs pc _ hx2
    simp at hx

end JumpToLink

namespace JumpToLink

lemma alphabet_length : alphabet.length = 26 := by decide

lemma fullLabelList_length (pc : Nat) (h : pc ≤ 26) :
    (fullLabelList pc).length = 26 + 25 * pc := by
  unfold fullLabelList
  rw [fullLabelList_singles]
  simp only [List.length_append, List.length_map, List.length_drop,
    List.length_flatMap, alphabet_length]
  rw [List.map_map]
  have : (List.length ∘ fun pre => alphabet.map (fun c => pre ++ [c])) ∘ (fun c => [c])
      = fun _ => 26 := by
    funext c
    simp [alphabet_length]
  rw [this, List.map_const', List.sum_replicate, List.length_take, alphabet_length,
    smul_eq_mul]
  have h1 : min pc 26 = pc := by omega
  rw [inf_eq_min, h1]
  omega

lemma pairwise_of_forall_mem {α : Type} (R : α → α → Prop) :
    ∀ (l : List α), (∀ a ∈ l, ∀ b ∈ l, R a b) → l.Pairwise R := by
  intro l
  induction l with
  | nil => intro _; exact List.Pairwise.nil
  | cons a t ih =>
    intro h
    refine List.Pairwise.cons ?_ (ih ?_)
    · intro b hb
      exact h a (by simp) b (by simp [hb])
    · intro x hx y hy
      exact h x (by simp [hx]) y (by simp [hy])

lemma not_strict_of_length_eq (a b : List Char) (h : a.length = b.length) :
    ¬ IsStrictPrefixOf a b := by
  rintro ⟨hp, hne⟩
  exact hne (hp.eq_of_length h)

lemma prefixFreePair_of_length_eq (a b : List Char) (h : a.length = b.length) :
    prefixFreePair a b :=
  ⟨not_strict_of_length_eq a b h, not_strict_of_length_eq b a h.symm⟩

lemma fullLabelList_prefixFree (pc : Nat) : (fullLabelList pc).Pairwise prefixFreePair := by
  unfold fullLabelList
  rw [fullLabelList_singles]
  refine List.pairwise_append.2 ⟨?_, ?_, ?_⟩
  · refine pairwise_of_forall_mem _ _ ?_
    intro a ha b hb
    simp only [List.mem_map] at ha hb
    obtain ⟨c1, _, rfl⟩ := ha
    obtain ⟨c2, _, rfl⟩ := hb
    exact prefixFreePair_of_length_eq _ _ rfl
  · refine pairwise_of_forall_mem _ _ ?_
    intro a ha b hb
    obtain ⟨p1, c1, _, rfl⟩ := mem_pairs pc _ ha
    obtain ⟨p2, c2, _, rfl⟩ := mem_pairs pc _ hb
    exact prefixFreePair_of_length_eq _ _ rfl
  · intro a ha b hb
    simp only [List.mem_map] at ha
    obtain ⟨c, hc, rfl⟩ := ha
    obtain ⟨p, c2, hp, rfl⟩ := mem_pairs pc _ hb
    constructor
    · rintro ⟨hpre, _⟩
      obtain ⟨t, ht⟩ := hpre
      have hcp : c = p := by
        have := congrArg (fun l => l.head?) ht
        simpa using this
      exact take_drop_disjoint pc (hcp ▸ hp) hc
    · rintro ⟨hpre, _⟩
      have := hpre.length_le
      simp at this

end JumpToLink

namespace JumpToLink

/-- C2: for every non-negative `n`, `getLinkHintLetters n` returns exactly
`min n 676` labels, pairwise distinct; so for `n ≤ 676` it returns `n`
distinct labels and for `n > 676` fewer than requested. -/
theorem getLinkHintLetters_count_and_distinct (n : Nat) :
    (getLinkHintLetters n).length = min n 676 ∧ (getLinkHintLetters n).Nodup := by
  constructor
  · rw [getLinkHintLetters_eq_take, List.length_take,
      fullLabelList_length _ (prefixCount_le n), prefixCount_eq, inf_eq_min]
    omega
  · rw [getLinkHintLetters_eq_take]
    exact List.Nodup.sublist (List.take_sublist n _) (fullLabelList_nodup _)

/-- C3: no label returned by `getLinkHintLetters n` is a strict prefix of
another label in the same sequence. -/
theorem getLinkHintLetters_prefixFree (n : Nat) :
    (getLinkHintLetters n).Pairwise prefixFreePair := by
  rw [getLinkHintLetters_eq_take]
  exact List.Pairwise.sublist (List.take_sublist n _) (fullLabelList_prefixFree _)

/-- C9: for `n ≤ 26` the labels are the first `n` single uppercase letters in
alphabet order. -/
theorem getLinkHintLetters_small (n : Nat) (h : n ≤ 26) :
    getLinkHintLetters n = (alphabet.take n).map (fun c => [c]) := by
  rw [getLinkHintLetters_eq_take]
  have hp : prefixCount n = 0 := by rw [prefixCount_eq]; omega
  rw [hp]
  have hfull : fullLabelList 0 = alphabet.map (fun c => [c]) := by rfl
  rw [hfull, List.map_take]

/-- C9 witness: `getLinkHintLetters 4 = [A, B, C, D]`. -/
theorem getLinkHintLetters_small_witness :
    getLinkHintLetters 4 = (alphabet.take 4).map (fun c => [c]) :=
  getLinkHintLetters_small 4 (by decide)

end JumpToLink

namespace JumpToLink

lemma singleton_ne_shiftKeyName (c : Char) : [c] ≠ shiftKeyName := by
  intro h
  have := congrArg List.length h
  simp [shiftKeyName] at this

/-- C1 counterexample: with labels `A` and `BA`, pressing `B` without Shift
records `shiftKey = false`, yet pressing `A` with Shift held dispatches
`newLeaf = true` while pressing `A` without Shift dispatches `false`: the
flag passed to the dispatcher is not the recorded value and does depend on
the second keystroke. -/
theorem prefixShift_counterexample :
    pendingB.prefixInfo = some { prefixKey := ['B'], shiftKey := false } ∧
    (handleKeyDown hintsAB pendingB { key := "A".data, shiftKey := true }).2
      = some (true, hintBA) ∧
    (handleKeyDown hintsAB pendingB { key := "A".data, shiftKey := false }).2
      = some (false, hintBA) := by
  refine ⟨rfl, ?_, ?_⟩ <;> rfl

/-- C1 amended: in a prefix-path resolution the flag passed to the navigation
dispatcher is the OR of the `shiftKey` recorded with the first keystroke and
the `shiftKey` of the second keystroke (so it equals the recorded flag
whenever Shift is not held during the second keystroke). -/
theorem prefixShift_or (hints : List LinkHintBase) (st : PluginState) (pi : PrefixInfo)
    (ev : KeyEvent) (b : Bool) (lh : LinkHintBase)
    (hpi : st.prefixInfo = some pi) (hk : ev.key ≠ shiftKeyName)
    (hres : (handleKeyDown hints st ev).2 = some (b, lh)) :
    b = (pi.shiftKey || ev.shiftKey) := by
  simp only [handleKeyDown, resolveKey, hk, if_false, hpi] at hres
  cases hlk : lookupHint hints (pi.prefixKey ++ ev.key.map Char.toUpper) with
  | none => rw [hlk] at hres; simp at hres
  | some h => rw [hlk] at hres; simp at hres; exact hres.1.symm

/-- C1 amended, witness: concrete prefix session where the dispatcher flag is
`false || true = true`. -/
theorem prefixShift_or_witness :
    (handleKeyDown hintsAB pendingB { key := "A".data, shiftKey := true }).2
      = some (true, hintBA) ∧
    (true : Bool) = (({ prefixKey := ['B'], shiftKey := false } : PrefixInfo).shiftKey || true) :=
  ⟨rfl, prefixShift_or hintsAB pendingB { prefixKey := ['B'], shiftKey := false }
    { key := "A".data, shiftKey := true } true hintBA rfl
    (singleton_ne_shiftKeyName 'A') rfl⟩

/-- C4: with labels `A` and `BA` armed, `B` records a prefix, then `A`
resolves to the `BA` hint and tears down; `B` then `Z` (no label `BZ`)
resolves to no target, dispatches nothing, and also tears down. -/
theorem prefixSession_resolution :
    handleKeyDown hintsAB armedAB { key := "B".data, shiftKey := false }
      = (pendingB, none) ∧
    handleKeyDown hintsAB pendingB { key := "A".data, shiftKey := false }
      = ({ prefixInfo := none, isLinkHintActive := false, listenerRegistered := false,
           popoverEls := 0, modalEls := 0 }, some (false, hintBA)) ∧
    handleKeyDown hintsAB pendingB { key := "Z".data, shiftKey := false }
      = ({ prefixInfo := none, isLinkHintActive := false, listenerRegistered := false,
           popoverEls := 0, modalEls := 0 }, none) := by
  refine ⟨?_, ?_, ?_⟩ <;> rfl

/-- C5: every resolving keystroke (complete match, prefix completion matching
or not, or no-match from Armed) unconditionally removes the keydown listener,
removes all rendered overlay elements, clears the prefix state and clears the
active-session flag. -/
theorem resolution_teardown (hints : List LinkHintBase) (st : PluginState) (ev : KeyEvent)
    (h : resolvesSession hints st ev) :
    (handleKeyDown hints st ev).1.listenerRegistered = false ∧
    (handleKeyDown hints st ev).1.popoverEls = 0 ∧
    (handleKeyDown hints st ev).1.modalEls = 0 ∧
    (handleKeyDown hints st ev).1.prefixInfo = none ∧
    (handleKeyDown hints st ev).1.isLinkHintActive = false := by
  obtain ⟨hk, hr⟩ := h
  cases hpi : st.prefixInfo with
  | some pi => simp [handleKeyDown, resolveKey, hk, hpi]
  | none =>
    have hcond : ((lookupHint hints (ev.key.map Char.toUpper)).isNone
        && isPrefixKey hints (ev.key.map Char.toUpper)) = false := by
      rcases hr with h1 | h2 | h3
      · exact absurd hpi h1
      · simp [Option.isNone_eq_false_iff, Option.isSome_iff_ne_none, h2]
      · simp [h3]
    simp only [handleKeyDown, hk, if_false, hpi, hcond, Bool.false_eq_true]
    simp [resolveKey]

/-- C5 witness: a no-match keystroke (`Z` from Armed, no prefix) tears down. -/
theorem resolution_teardown_witness :
    resolvesSession hintsAB armedAB { key := "Q".data, shiftKey := false } ∧
    ((handleKeyDown hintsAB armedAB { key := "Q".data, shiftKey := false }).1.listenerRegistered
       = false ∧
     (handleKeyDown hintsAB armedAB { key := "Q".data, shiftKey := false }).1.popoverEls = 0 ∧
     (handleKeyDown hintsAB armedAB { key := "Q".data, shiftKey := false }).1.modalEls = 0 ∧
     (handleKeyDown hintsAB armedAB { key := "Q".data, shiftKey := false }).1.prefixInfo = none ∧
     (handleKeyDown hintsAB armedAB { key := "Q".data, shiftKey := false }).1.isLinkHintActive
       = false) :=
  ⟨by constructor
      · exact singleton_ne_shiftKeyName 'Q'
      · right; right; rfl,
   resolution_teardown hintsAB armedAB { key := "Q".data, shiftKey := false }
     ⟨singleton_ne_shiftKeyName 'Q', Or.inr (Or.inr rfl)⟩⟩

/-- C8: a keystroke whose key is exactly `Shift` leaves the session state and
outputs unchanged, and a subsequent keystroke is processed exactly as if the
Shift-only event had not occurred. -/
theorem shiftOnly_noop (hints : List LinkHintBase) (st : PluginState) (ev ev2 : KeyEvent)
    (h : ev.key = shiftKeyName) :
    handleKeyDown hints st ev = (st, none) ∧
    handleKeyDown hints (handleKeyDown hints st ev).1 ev2 = handleKeyDown hints st ev2 := by
  have h1 : handleKeyDown hints st ev = (st, none) := by
    unfold handleKeyDown
    rw [if_pos h]
  exact ⟨h1, by rw [h1]⟩

/-- C8 witness: Shift alone in the armed fixture is a no-op and `B` still
records the prefix afterwards. -/
theorem shiftOnly_noop_witness :
    handleKeyDown hintsAB armedAB { key := "Shift".data, shiftKey := true }
      = (armedAB, none) ∧
    handleKeyDown hintsAB
        (handleKeyDown hintsAB armedAB { key := "Shift".data, shiftKey := true }).1
        { key := "B".data, shiftKey := false }
      = handleKeyDown hintsAB armedAB { key := "B".data, shiftKey := false } :=
  shiftOnly_noop hintsAB armedAB { key := "Shift".data, shiftKey := true }
    { key := "B".data, shiftKey := false } rfl

end JumpToLink

namespace JumpToLink

lemma toUpper_idem_on_lower :
    ∀ b ∈ lowercaseAlphabet, Char.toUpper (Char.toUpper b) = Char.toUpper b := by
  decide

/-- C10: in the prefix-pending state the second keystroke is uppercased
before being appended to the recorded prefix and looked up, so a lowercase
second character behaves exactly like its uppercase form. -/
theorem prefixSecondKey_caseInsensitive (hints : List LinkHintBase) (st : PluginState)
    (pi : PrefixInfo) (b : Char) (s : Bool)
    (hpi : st.prefixInfo = some pi) (hb : b ∈ lowercaseAlphabet) :
    handleKeyDown hints st { key := [b], shiftKey := s }
      = resolveKey st { key := [b], shiftKey := s }
          (lookupHint hints (pi.prefixKey ++ [Char.toUpper b])) ∧
    handleKeyDown hints st { key := [b], shiftKey := s }
      = handleKeyDown hints st { key := [Char.toUpper b], shiftKey := s } := by
  have h1 : handleKeyDown hints st { key := [b], shiftKey := s }
      = resolveKey st { key := [b], shiftKey := s }
          (lookupHint hints (pi.prefixKey ++ [Char.toUpper b])) := by
    simp only [handleKeyDown, singleton_ne_shiftKeyName b, if_false, hpi, List.map_cons,
      List.map_nil]
  have h2 : handleKeyDown hints st { key := [Char.toUpper b], shiftKey := s }
      = resolveKey st { key := [Char.toUpper b], shiftKey := s }
          (lookupHint hints (pi.prefixKey ++ [Char.toUpper b])) := by
    simp only [handleKeyDown, singleton_ne_shiftKeyName (Char.toUpper b), if_false, hpi,
      List.map_cons, List.map_nil, toUpper_idem_on_lower b hb]
  refine ⟨h1, ?_⟩
  rw [h1, h2]
  simp [resolveKey]

/-- C10 witness: after prefix `B`, the keystrokes `a` and `A` produce the same
resolution (to the `BA` hint). -/
theorem prefixSecondKey_caseInsensitive_witness :
    handleKeyDown hintsAB pendingB { key := ['a'], shiftKey := false }
      = resolveKey pendingB { key := ['a'], shiftKey := false }
          (lookupHint hintsAB (['B'] ++ [Char.toUpper 'a'])) ∧
    handleKeyDown hintsAB pendingB { key := ['a'], shiftKey := false }
      = handleKeyDown hintsAB pendingB { key := [Char.toUpper 'a'], shiftKey := false } :=
  prefixSecondKey_caseInsensitive hintsAB pendingB
    { prefixKey := ['B'], shiftKey := false } 'a' false rfl (by decide)

/-- C6: while a session is active, a new activation request is a no-op: the
state is unchanged and no listener registration, hint-set construction or
rendering effect occurs. -/
theorem activation_noop_while_active (mode : LinkHintMode) (st : PluginState)
    (view : ViewState) (h : st.isLinkHintActive = true) :
    handleJumpToLink mode st view = (st, []) := by
  simp [handleJumpToLink, h]

/-- C6 witness: re-activation in the armed fixture is a no-op. -/
theorem activation_noop_while_active_witness :
    handleJumpToLink LinkHintMode.popovers armedAB (ViewState.sourceView docText)
      = (armedAB, []) :=
  activation_noop_while_active LinkHintMode.popovers armedAB
    (ViewState.sourceView docText) rfl

end JumpToLink

namespace JumpToLink

/-- C7: on the fixture document the raw-text locator yields exactly three
descriptors in index order: internal `Home`, external `http://x.com`,
external `https://y.com` (the first two both start at index 4: the external
regex's leftmost match starts at the `[[` of `[[Home]]`; the stable sort
keeps the internal descriptor first). -/
theorem sourceLinkHints_fixture :
    getSourceLinkHints docText =
      [{ letter := some ['A'], index := 4, type := LinkHintType.internal,
         linkText := "Home".data },
       { letter := some ['B'], index := 4, type := LinkHintType.external,
         linkText := "http://x.com".data },
       { letter := some ['C'], index := 47, type := LinkHintType.external,
         linkText := "https://y.com".data }] := by
  rfl

end JumpToLink
